import Mathlib

/-!
Verification of `generate_readme.py`: a shallow embedding in Lean 4 of the
README-generator pipeline (front-matter parsing, file gating, grouping,
sorting, category ordering, and rendering), together with theorems settling
the specification's claims about it.

Modelling conventions:
* File contents are `String`s (the Python code reads each file fully before
  parsing; the read itself is I/O and outside the embedding).
* Python dicts are modelled as insertion-ordered association lists
  (`List (String × α)`), with update-in-place-else-append insertion,
  matching CPython dict semantics.
* `re` character classes and `str` methods are modelled at `List Char`
  level.  `\w` is modelled over ASCII (letters, digits, underscore);
  `str.lower` is modelled as ASCII case mapping.  Whitespace (`\s`,
  `str.strip`) covers the ASCII whitespace characters plus the Unicode
  whitespace characters Python treats as spaces.
-/

/-- Whitespace as matched by Python's `\s` / stripped by `str.strip`. -/
def isSpace (c : Char) : Bool :=
  c = ' ' || c = '\t' || c = '\n' || c = '\r' || c = '\x0b' || c = '\x0c' ||
  c = '\x1c' || c = '\x1d' || c = '\x1e' || c = '\x1f' || c = '\x85' || c = '\xa0' ||
  c = ' ' || (' ' ≤ c && c ≤ ' ') || c = ' ' || c = ' ' ||
  c = ' ' || c = ' ' || c = '　'

/-- Word characters as matched by `\w` (ASCII model: letters, digits, underscore). -/
def isWordChar (c : Char) : Bool :=
  c.isAlpha || c.isDigit || c = '_'

/-- Line-break characters recognised by Python's `str.splitlines`. -/
def isLineBreak (c : Char) : Bool :=
  c = '\n' || c = '\r' || c = '\x0b' || c = '\x0c' ||
  c = '\x1c' || c = '\x1d' || c = '\x1e' || c = '\x85' || c = ' ' || c = ' '

/-- `str.splitlines`: split at line-break characters (treating `"\r\n"` as one
break); a trailing break does not produce a trailing empty line.  `acc` holds
the current line reversed. -/
def splitLinesAux (acc : List Char) : List Char → List (List Char)
  | [] => if acc.isEmpty then [] else [acc.reverse]
  | '\r' :: '\n' :: rest => acc.reverse :: splitLinesAux [] rest
  | c :: rest =>
    if isLineBreak c then acc.reverse :: splitLinesAux [] rest
    else splitLinesAux (c :: acc) rest

def splitLines (cs : List Char) : List (List Char) :=
  splitLinesAux [] cs

/-- `str.strip()` on `List Char`. -/
def stripChars (cs : List Char) : List Char :=
  ((cs.dropWhile isSpace).reverse.dropWhile isSpace).reverse

/-- `str.strip()`. -/
def pythonStrip (s : String) : String :=
  ⟨stripChars s.data⟩

/-- The value part of the quoted patterns `key: "value"` / `key: 'value'`:
after the opening quote, the rest of the line must consist of at least one
character (`(.+)` — the greedy group) followed by a closing quote at
end-of-line, so the value is everything strictly between the first quote and
the line's final character. -/
def quotedVal (q : Char) (r : List Char) : Option (List Char) :=
  match r.reverse with
  | [] => none
  | last :: vrev => if last = q && !vrev.isEmpty then some vrev.reverse else none

/-- The value group of the bare pattern `key: value`, i.e. `\s*(.+)$` applied
to the remainder `r` after the colon: the greedy `\s*` backtracks just enough
to leave `(.+)` at least one character. -/
def bareVal (r : List Char) : Option (List Char) :=
  match r.dropWhile isSpace with
  | [] => match r.getLast? with
    | some c => some [c]
    | none => none
  | v => some v

/-- One line of the metadata block, per the three patterns of
`parse_front_matter` tried in order:
`^(\w+)\s*:\s*"(.+)"$`, then `^(\w+)\s*:\s*'(.+)'$`, then `^(\w+)\s*:\s*(.+)$`.
All three share the `key \s* :` part; the raw matched value group is returned
(the caller applies `.strip()`). -/
def parseKV (line : List Char) : Option (String × List Char) :=
  let key := line.takeWhile isWordChar
  if key.isEmpty then none
  else
    match (line.dropWhile isWordChar).dropWhile isSpace with
    | ':' :: r =>
      let r' := r.dropWhile isSpace
      let dq : Option (List Char) :=
        match r' with
        | '"' :: r5 => quotedVal '"' r5
        | _ => none
      let sq : Option (List Char) :=
        match r' with
        | '\'' :: r6 => quotedVal '\'' r6
        | _ => none
      match dq <|> sq <|> bareVal r with
      | some v => some (⟨key⟩, v)
      | none => none
    | _ => none

/-- Python-dict insertion: update in place when the key exists, else append. -/
def dictInsert (d : List (String × String)) (k v : String) : List (String × String) :=
  match d with
  | [] => [(k, v)]
  | (k', v') :: rest => if k' = k then (k', v) :: rest else (k', v') :: dictInsert rest k v

/-- Python-dict lookup (`d.get(k)`). -/
def dictGet {α : Type} (d : List (String × α)) (k : String) : Option α :=
  match d with
  | [] => none
  | (k', v) :: rest => if k' = k then some v else dictGet rest k

/-- The loop body of `parse_front_matter`: each block line that matches one of
the three patterns contributes `front_matter[key] = value.strip()`
(last occurrence wins); other lines are ignored. -/
def parseBlock (lines : List (List Char)) : List (String × String) :=
  lines.foldl
    (fun d line =>
      match parseKV line with
      | some (k, v) => dictInsert d k ⟨stripChars v⟩
      | none => d)
    []

/-- Does the input start with a closing front-matter delimiter `---\s*\n`
(three hyphens, then whitespace containing a newline)? -/
def isCloseDelim : List Char → Bool
  | c0 :: c1 :: c2 :: t =>
    c0 = '-' && c1 = '-' && c2 = '-' && (t.takeWhile isSpace).contains '\n'
  | _ => false

/-- The lazy group `(.*?\n)` followed by the closing delimiter: scan left to
right and, immediately after consuming each newline, test for the closing
delimiter; the first success yields the (shortest) group, matching the regex
engine's lazy-quantifier order.  `acc` holds the consumed prefix reversed. -/
def scanForClose (acc : List Char) : List Char → Option (List Char)
  | [] => none
  | c :: rest =>
    if c = '\n' && isCloseDelim rest then some ('\n' :: acc).reverse
    else scanForClose (c :: acc) rest

/-- Candidate lengths for the opening delimiter's `\s*\n` part: the indices
`k` such that the first `k` characters are whitespace and the `k`-th character
is a newline.  Returned in increasing order, offset by `i`. -/
def nlPositions : List Char → Nat → List Nat
  | [], _ => []
  | c :: t, i =>
    if c = '\n' then i :: nlPositions t (i + 1)
    else if isSpace c then nlPositions t (i + 1)
    else []

/-- `re.match(r"^---\s*\n(.*?\n)---\s*\n", content, re.DOTALL)`:
the content must start with `---`; the greedy `\s*\n` of the opening delimiter
tries the longest candidate first; the group is found lazily.  Returns the
matched group (the text between the delimiters). -/
def matchFrontMatterBlock : List Char → Option (List Char)
  | c0 :: c1 :: c2 :: rest =>
    if c0 = '-' ∧ c1 = '-' ∧ c2 = '-' then
      (nlPositions rest 0).reverse.findSome? (fun k => scanForClose [] (rest.drop (k + 1)))
    else none
  | _ => none

/-- `parse_front_matter`, as a function of the file's content: `none` when the
delimiter regex does not match ("no metadata"), otherwise the parsed mapping
(possibly empty). -/
def parse_front_matter (content : String) : Option (List (String × String)) :=
  (matchFrontMatterBlock content.data).map (fun g => parseBlock (splitLines g))

/-! ## The pipeline of `generate_readme` -/

/-- One collected plan (`{"title": ..., "description": ..., "filename": ...}`),
grouped under its category. -/
structure Entry where
  title : String
  description : String
  filename : String
deriving DecidableEq, Repr

def CATEGORY_ORDER : List String :=
  ["Spring & Spring Boot",
   "JVM Internals",
   "Build Tools",
   "Data & Messaging",
   "APIs & Protocols",
   "Observability",
   "Infrastructure",
   "Languages & Paradigms",
   "NewSQL"]

def EXCLUDED_FILES : List String := ["README.md", "CLAUDE.md"]

/-- `categories.setdefault(category, []).append(entry)`: append the entry to
the category's list, creating the key (at the end, in insertion order) if
absent. -/
def addEntry (cats : List (String × List Entry)) (cat : String) (e : Entry) :
    List (String × List Entry) :=
  match cats with
  | [] => [(cat, [e])]
  | (c, es) :: rest =>
    if c = cat then (c, es ++ [e]) :: rest else (c, es) :: addEntry rest cat e

/-- State threaded through the per-file loop: the categories dict and the
diagnostic lines printed to stderr, in order. -/
structure RunState where
  categories : List (String × List Entry)
  warnings : List String
deriving DecidableEq, Repr

/-- The body of the per-file loop of `generate_readme`: skip excluded
filenames; warn and skip on missing front matter; warn and skip when any of
`title`, `category`, `description` is absent or empty (Python falsiness of
`None` and `""` in `not all([...])`); otherwise record the entry under its
category. -/
def stepFile (st : RunState) (file : String × String) : RunState :=
  let filename := file.1
  if EXCLUDED_FILES.contains filename then st
  else
    match parse_front_matter file.2 with
    | none =>
      { st with warnings :=
          st.warnings ++ ["warning: " ++ filename ++ " has no front matter, skipping"] }
    | some fm =>
      match dictGet fm "title", dictGet fm "category", dictGet fm "description" with
      | some title, some category, some description =>
        if title ≠ "" ∧ category ≠ "" ∧ description ≠ "" then
          { st with categories :=
              addEntry st.categories category (Entry.mk title description filename) }
        else
          { st with warnings :=
              st.warnings ++
                ["warning: " ++ filename ++ " missing required front matter fields, skipping"] }
      | _, _, _ =>
        { st with warnings :=
            st.warnings ++
              ["warning: " ++ filename ++ " missing required front matter fields, skipping"] }

/-- The collection loop, over the (sorted) list of discovered markdown files,
given as (filename, content) pairs. -/
def collectRun (files : List (String × String)) : RunState :=
  files.foldl stepFile ⟨[], []⟩

/-- All entries collected in a state, in category-then-insertion order. -/
def stateEntries (st : RunState) : List Entry :=
  st.categories.flatMap Prod.snd

def entriesOf (files : List (String × String)) : List Entry :=
  stateEntries (collectRun files)

/-- `str.lower` (ASCII model), the sort key `e["title"].lower()`. -/
def pyLower (s : String) : String :=
  ⟨s.data.map Char.toLower⟩

def titleKey (e : Entry) : String :=
  pyLower e.title

/-- Code-point lexicographic strict comparison on character lists (Python's
string `<`), as an executable Boolean. -/
def ltChars : List Char → List Char → Bool
  | [], [] => false
  | [], _ :: _ => true
  | _ :: _, [] => false
  | a :: as, b :: bs =>
    if a < b then true
    else if b < a then false
    else ltChars as bs

/-- Python's string `<`. -/
def ltStr (s t : String) : Bool :=
  ltChars s.data t.data

/-- Python's string `<=` (`s <= t` iff not `t < s`). -/
def leStr (s t : String) : Bool :=
  !(ltStr t s)

/-- Stable insertion into a key-sorted list: the new element goes before the
first existing element whose key it is ≤, hence after all earlier-inserted
elements with an equal key. -/
def pyInsert {α : Type} (key : α → String) (e : α) : List α → List α
  | [] => [e]
  | f :: fs =>
    if leStr (key e) (key f) then e :: f :: fs else f :: pyInsert key e fs

/-- Python's stable sort (`list.sort(key=...)` / `sorted`): any stable sort by
a total preorder computes the same list, so insertion sort (inserting from the
right) models it. -/
def pySort {α : Type} (key : α → String) : List α → List α
  | [] => []
  | e :: es => pyInsert key e (pySort key es)

/-- `entries.sort(key=lambda e: e["title"].lower())`. -/
def sortEntries : List Entry → List Entry :=
  pySort titleKey

/-- The categories dict after the in-place `entries.sort(...)` loop. -/
def sortedCategories (files : List (String × String)) : List (String × List Entry) :=
  ((collectRun files).categories).map (fun p => (p.1, sortEntries p.2))

/-- Python's `sorted` on a list of strings (code-point lexicographic order). -/
def sortStrings : List String → List String :=
  pySort (fun s => s)

/-- `ordered_categories`: the preferred categories that are present, in
`CATEGORY_ORDER` order, then `sorted(set(categories.keys()) - set(CATEGORY_ORDER))`. -/
def orderedCategories (cats : List (String × List Entry)) : List String :=
  CATEGORY_ORDER.filter (fun c => (dictGet cats c).isSome) ++
    sortStrings (((cats.map Prod.fst).filter (fun c => !CATEGORY_ORDER.contains c)).dedup)

/-- `total = sum(len(categories[c]) for c in ordered_categories)`. -/
def totalCount (files : List (String × String)) : Nat :=
  let cats := sortedCategories files
  (orderedCategories cats).foldl
    (fun n c => n + ((dictGet cats c).getD []).length) 0

/-- One rendered bullet:
`f"- [{entry['title']}]({entry['filename']})" f" — {entry['description']}"`. -/
def bulletLine (e : Entry) : String :=
  "- [" ++ e.title ++ "](" ++ e.filename ++ ")" ++ " — " ++ e.description

/-- The lines appended for one category section. -/
def categoryLines (cats : List (String × List Entry)) (c : String) : List String :=
  ["", "### " ++ c, ""] ++ ((dictGet cats c).getD []).map bulletLine

/-- The Overview sentence, with the total interpolated. -/
def overviewLine (total : Nat) : String :=
  "This repository contains " ++ toString total ++ " self-paced learning plans generated with" ++
  " Claude. Each plan follows a phased, project-based format designed for" ++
  " working engineers — typically 12–16 weeks of focused study with curated" ++
  " resources, hands-on milestones, and progressive complexity. Topics range" ++
  " from Spring Boot internals to Kubernetes, Go, and distributed data systems."

/-- The fixed lines before the category sections (with the interpolated
Overview sentence). -/
def headLines (total : Nat) : List String :=
  ["# Claude Learning Plans",
   "",
   "Structured, multi-week learning curricula for senior engineers who want" ++
     " deep mastery of backend, infrastructure, and systems topics.",
   "",
   "## Overview",
   "",
   overviewLine total,
   "",
   "## Plans by Category"]

/-- The fixed lines after the category sections ("How to Use"), ending with
the empty line appended for the trailing newline. -/
def tailHowToLines : List String :=
  ["",
   "## How to Use These Plans",
   "",
   "Each plan is a standalone Markdown file structured around:",
   "",
   "1. **Phases** — Progressive stages from foundations to advanced topics," ++
     " typically spanning 12–16 weeks.",
   "2. **Milestones** — Concrete projects and exercises at each phase to" ++
     " validate understanding.",
   "3. **Curated Resources** — Books, documentation, talks, and blog posts" ++
     " selected for each topic.",
   "",
   "Pick a plan that matches your current learning goal, work through the" ++
     " phases at your own pace, and use the milestones to gauge progress.",
   ""]

/-- The full `lines` list built by `generate_readme`. -/
def allLines (files : List (String × String)) : List String :=
  let cats := sortedCategories files
  headLines (totalCount files) ++
    (orderedCategories cats).flatMap (categoryLines cats) ++
    tailHowToLines

/-- `"\n".join(lines)`. -/
def joinLines : List String → String
  | [] => ""
  | [l] => l
  | l :: ls => l ++ "\n" ++ joinLines ls

/-- The full text written to `README.md`, as a function of the discovered
(filename, content) pairs, in the sorted order `generate_readme` visits them. -/
def generate_readme (files : List (String × String)) : String :=
  joinLines (allLines files)

/-! ## Predicates used to state the claims -/

/-- A file that is not excluded from the run. -/
def isCandidate (filename : String) : Bool :=
  !(EXCLUDED_FILES.contains filename)

/-- The per-file gate of `generate_readme`: the parse must yield a mapping in
which `title`, `category` and `description` are all present and non-empty
(`not all([title, category, description])` with Python falsiness). -/
def requiredFieldsOk : Option (List (String × String)) → Bool
  | none => false
  | some fm =>
    match dictGet fm "title", dictGet fm "category", dictGet fm "description" with
    | some t, some c, some d => decide (t ≠ "" ∧ c ≠ "" ∧ d ≠ "")
    | _, _, _ => false

/-- The Entry the run builds for a file that passes the gate. -/
def mkEntryOf (filename content : String) : Entry :=
  match parse_front_matter content with
  | none => Entry.mk "" "" filename
  | some fm =>
    Entry.mk ((dictGet fm "title").getD "") ((dictGet fm "description").getD "") filename

/-- A candidate file that is skipped with a warning (no front matter, or
missing/empty required fields). -/
def failsGate (content : String) : Bool :=
  !(requiredFieldsOk (parse_front_matter content))

/-- The diagnostic line printed to stderr for a skipped candidate file. -/
def warnMsg (filename content : String) : String :=
  match parse_front_matter content with
  | none => "warning: " ++ filename ++ " has no front matter, skipping"
  | some _ => "warning: " ++ filename ++ " missing required front matter fields, skipping"

/-- Recognises the lines rendered for entries (they are exactly the lines that
start with the bullet prefix; no fixed line and no category heading does). -/
def isBulletLine (s : String) : Bool :=
  match s.data with
  | '-' :: ' ' :: '[' :: _ => true
  | _ => false

/-- The decompositions of a file content accepted by the front-matter regex
`^---\s*\n(.*?\n)---\s*\n` (DOTALL): three hyphens, optional whitespace, a
newline, a block of at least one character ending in a newline, three hyphens,
optional whitespace, a newline, and arbitrary remaining text. -/
def FMDecomp (cs : List Char) : Prop :=
  ∃ w body w2 rest, cs =
      '-' :: '-' :: '-' ::
        (w ++ '\n' :: (body ++ '\n' :: ('-' :: '-' :: '-' :: (w2 ++ '\n' :: rest)))) ∧
    w.all isSpace = true ∧ w2.all isSpace = true

/-! ## Generic facts about the stable sort -/

theorem ltChars_iff : ∀ as bs : List Char, ltChars as bs = true ↔ List.Lex (· < ·) as bs
  | [], [] => by
    constructor
    · intro h
      exact absurd h (by simp [ltChars])
    · intro h
      cases h
  | [], b :: bs => by
    simp only [ltChars]
    constructor
    · intro _
      exact List.Lex.nil
    · intro _
      trivial
  | a :: as, [] => by
    constructor
    · intro h
      exact absurd h (by simp [ltChars])
    · intro h
      cases h
  | a :: as, b :: bs => by
    have ih := ltChars_iff as bs
    constructor
    · intro h
      by_cases hab : a < b
      · exact List.Lex.rel hab
      · by_cases hba : b < a
        · simp [ltChars, hab, hba] at h
        · have heq : a = b := le_antisymm (not_lt.1 hba) (not_lt.1 hab)
          subst heq
          exact List.Lex.cons (ih.1 (by simpa [ltChars, lt_irrefl] using h))
    · intro h
      cases h with
      | rel hab => simp [ltChars, hab]
      | cons htl =>
        simp only [ltChars, if_neg (lt_irrefl a)]
        exact ih.2 htl

theorem ltStr_iff (s t : String) : ltStr s t = true ↔ s < t := by
  rw [String.lt_iff_toList_lt]
  exact ltChars_iff s.data t.data

theorem leStr_iff (s t : String) : leStr s t = true ↔ s ≤ t := by
  unfold leStr
  constructor
  · intro hb
    refine le_of_not_lt (fun hlt => ?_)
    rw [(ltStr_iff t s).2 hlt] at hb
    exact Bool.noConfusion hb
  · intro hle
    cases hlt : ltStr t s
    · rfl
    · exact absurd ((ltStr_iff t s).1 hlt) (not_lt.2 hle)

theorem pyInsert_perm {α : Type} (key : α → String) (e : α) (l : List α) :
    List.Perm (pyInsert key e l) (e :: l) := by
  induction l with
  | nil => simp [pyInsert]
  | cons f fs ih =>
    simp only [pyInsert]
    by_cases h : leStr (key e) (key f) = true
    · simp [h]
    · simp only [if_neg h]
      exact (ih.cons f).trans (List.Perm.swap e f fs)

theorem pySort_perm {α : Type} (key : α → String) (l : List α) :
    List.Perm (pySort key l) l := by
  induction l with
  | nil => simp [pySort]
  | cons e es ih =>
    simp only [pySort]
    exact (pyInsert_perm key e (pySort key es)).trans (ih.cons e)

theorem mem_pyInsert {α : Type} (key : α → String) (e x : α) (l : List α) :
    x ∈ pyInsert key e l ↔ x = e ∨ x ∈ l := by
  have h := (pyInsert_perm key e l).mem_iff (a := x)
  simpa using h

theorem pyInsert_sorted {α : Type} (key : α → String) (e : α) (l : List α)
    (h : List.Pairwise (fun a b => key a ≤ key b) l) :
    List.Pairwise (fun a b => key a ≤ key b) (pyInsert key e l) := by
  induction l with
  | nil => simp [pyInsert]
  | cons f fs ih =>
    rw [List.pairwise_cons] at h
    simp only [pyInsert]
    by_cases hef : leStr (key e) (key f) = true
    · rw [if_pos hef]
      refine List.Pairwise.cons ?_ (List.Pairwise.cons h.1 h.2)
      intro b hb
      rcases List.mem_cons.1 hb with hb | hb
      · exact hb ▸ (leStr_iff _ _).1 hef
      · exact le_trans ((leStr_iff _ _).1 hef) (h.1 b hb)
    · rw [if_neg hef]
      refine List.Pairwise.cons ?_ (ih h.2)
      intro b hb
      rcases (mem_pyInsert key e b fs).1 hb with hb | hb
      · refine hb ▸ le_of_not_le (fun hle => hef ((leStr_iff _ _).2 hle))
      · exact h.1 b hb

theorem pySort_sorted {α : Type} (key : α → String) (l : List α) :
    List.Pairwise (fun a b => key a ≤ key b) (pySort key l) := by
  induction l with
  | nil => simp [pySort]
  | cons e es ih => exact pyInsert_sorted key e (pySort key es) ih

theorem pyInsert_filter_key {α : Type} (key : α → String) (e : α) (l : List α) (k : String) :
    (pyInsert key e l).filter (fun x => key x == k) =
      if key e = k then e :: l.filter (fun x => key x == k)
      else l.filter (fun x => key x == k) := by
  induction l with
  | nil =>
    by_cases he : key e = k <;> simp [pyInsert, List.filter_cons, he]
  | cons f fs ih =>
    simp only [pyInsert]
    by_cases hef : leStr (key e) (key f) = true
    · rw [if_pos hef]
      by_cases he : key e = k <;> simp [List.filter_cons, he]
    · rw [if_neg hef]
      by_cases he : key e = k
      · have hf : ¬ key f = k := by
          intro hf
          exact hef ((leStr_iff _ _).2 (le_of_eq (he.trans hf.symm)))
        simp [List.filter_cons, ih, he, hf]
      · simp [List.filter_cons, ih, he]

theorem pySort_filter_key {α : Type} (key : α → String) (l : List α) (k : String) :
    (pySort key l).filter (fun x => key x == k) = l.filter (fun x => key x == k) := by
  induction l with
  | nil => simp [pySort]
  | cons e es ih =>
    rw [pySort, pyInsert_filter_key, ih]
    by_cases he : key e = k <;> simp [List.filter_cons, he]

example :
    sortEntries [Entry.mk "banana" "d1" "f1", Entry.mk "Apple" "d2" "f2", Entry.mk "cherry" "d3" "f3"] =
      [Entry.mk "Apple" "d2" "f2", Entry.mk "banana" "d1" "f1", Entry.mk "cherry" "d3" "f3"] := by
  decide

/-! ## Sanity checks on concrete inputs -/

example : parse_front_matter "---\ntitle: \"Go Internals\"\ncategory: C\ndescription: 'D'\n---\nbody" =
    some [("title", "Go Internals"), ("category", "C"), ("description", "D")] := by decide

example : parse_front_matter "no front matter here" = none := by decide

example : parse_front_matter "---\nfoo\n---\n" = some [] := by decide

example : parse_front_matter "---\n---\n" = none := by decide

example : parse_front_matter "--- \nkey:  spaced value  \n--- \nrest" =
    some [("key", "spaced value")] := by decide

example :
    entriesOf [("a.md", "---\ntitle: \"Go Internals\"\ncategory: \"Languages & Paradigms\"\ndescription: \"Deep dive\"\n---\n"), ("b.md", "no front matter")] =
      [⟨"Go Internals", "Deep dive", "a.md"⟩] := by decide

example :
    (collectRun [("b.md", "no front matter")]).warnings =
      ["warning: b.md has no front matter, skipping"] := by decide

example :
    totalCount [("a.md", "---\ntitle: \"Go Internals\"\ncategory: \"Languages & Paradigms\"\ndescription: \"Deep dive\"\n---\n")] = 1 := by decide

/-! ## The collection loop: which entries exist -/

theorem dictGet_isSome_iff {α : Type} (d : List (String × α)) (k : String) :
    (dictGet d k).isSome = true ↔ k ∈ d.map Prod.fst := by
  induction d with
  | nil => simp [dictGet]
  | cons p rest ih =>
    obtain ⟨k', v⟩ := p
    by_cases h : k' = k
    · simp [dictGet, h]
    · simp only [dictGet, if_neg h, List.map_cons, List.mem_cons, ih]
      constructor
      · intro hk
        exact Or.inr hk
      · rintro (rfl | hk)
        · exact absurd rfl h
        · exact hk

theorem mem_addEntry (cats : List (String × List Entry)) (c : String) (e x : Entry) :
    x ∈ (addEntry cats c e).flatMap Prod.snd ↔ x ∈ cats.flatMap Prod.snd ∨ x = e := by
  induction cats with
  | nil => simp [addEntry]
  | cons p rest ih =>
    obtain ⟨c', es⟩ := p
    by_cases h : c' = c
    · simp only [addEntry, if_pos h, List.flatMap_cons, List.mem_append, List.mem_singleton, ih]
      tauto
    · simp only [addEntry, if_neg h, List.flatMap_cons, List.mem_append, ih]
      tauto

theorem stateEntries_stepFile (st : RunState) (f : String × String) (x : Entry) :
    x ∈ stateEntries (stepFile st f) ↔
      x ∈ stateEntries st ∨
        (isCandidate f.1 = true ∧ requiredFieldsOk (parse_front_matter f.2) = true ∧
          x = mkEntryOf f.1 f.2) := by
  obtain ⟨fn, content⟩ := f
  by_cases hex : fn ∈ EXCLUDED_FILES
  · simp [stepFile, hex, isCandidate]
  · rcases hp : parse_front_matter content with _ | fm
    · simp [stepFile, hex, hp, requiredFieldsOk, stateEntries]
    · rcases ht : dictGet fm "title" with _ | t
      · simp [stepFile, hex, hp, ht, requiredFieldsOk, stateEntries]
      · rcases hc : dictGet fm "category" with _ | c
        · simp [stepFile, hex, hp, ht, hc, requiredFieldsOk, stateEntries]
        · rcases hd : dictGet fm "description" with _ | d
          · simp [stepFile, hex, hp, ht, hc, hd, requiredFieldsOk, stateEntries]
          · by_cases hg : t ≠ "" ∧ c ≠ "" ∧ d ≠ ""
            · simp [stepFile, hex, hp, ht, hc, hd, hg, isCandidate, requiredFieldsOk,
                stateEntries, mkEntryOf]
              have h := mem_addEntry st.categories c (Entry.mk t d fn) x
              simpa [List.mem_flatMap, Prod.exists] using h
            · simp [stepFile, hex, hp, ht, hc, hd, hg, isCandidate, requiredFieldsOk,
                stateEntries]

theorem stateEntries_foldl (files : List (String × String)) (st : RunState) (x : Entry) :
    x ∈ stateEntries (files.foldl stepFile st) ↔
      x ∈ stateEntries st ∨
        ∃ p ∈ files, isCandidate p.1 = true ∧
          requiredFieldsOk (parse_front_matter p.2) = true ∧ x = mkEntryOf p.1 p.2 := by
  induction files generalizing st with
  | nil => simp
  | cons f fs ih =>
    rw [List.foldl_cons, ih, stateEntries_stepFile]
    simp only [List.mem_cons]
    constructor
    · rintro ((h | h) | ⟨p, hp, hφ⟩)
      · exact Or.inl h
      · exact Or.inr ⟨f, Or.inl rfl, h⟩
      · exact Or.inr ⟨p, Or.inr hp, hφ⟩
    · rintro (h | ⟨p, (rfl | hp), hφ⟩)
      · exact Or.inl (Or.inl h)
      · exact Or.inl (Or.inr hφ)
      · exact Or.inr ⟨p, hp, hφ⟩

theorem mkEntryOf_filename (fn content : String) : (mkEntryOf fn content).filename = fn := by
  unfold mkEntryOf
  split <;> rfl

theorem eq_of_nodup_keys {β : Type} (l : List (String × β)) (h : (l.map Prod.fst).Nodup)
    (p q : String × β) (hp : p ∈ l) (hq : q ∈ l) (hfst : p.1 = q.1) : p = q := by
  induction l with
  | nil => cases hp
  | cons a rest ih =>
    rw [List.map_cons, List.nodup_cons] at h
    rcases List.mem_cons.1 hp with rfl | hp'
    · rcases List.mem_cons.1 hq with rfl | hq'
      · rfl
      · exact absurd (hfst ▸ List.mem_map_of_mem Prod.fst hq') h.1
    · rcases List.mem_cons.1 hq with rfl | hq'
      · exact absurd (hfst ▸ List.mem_map_of_mem Prod.fst hp') (fun hm => h.1 hm)
      · exact ih h.2 hp' hq'

/-- C1: for every candidate (non-excluded) file of a run, an Entry with that
file's name is collected iff the parsed front matter maps `title`, `category`
and `description` to non-empty values; a file whose parse yields no mapping,
or whose mapping lacks any of the three keys or maps one to the empty string,
contributes no Entry. -/
theorem required_field_gating (files : List (String × String))
    (hnd : (files.map Prod.fst).Nodup) (fn content : String)
    (hmem : (fn, content) ∈ files) (hcand : isCandidate fn = true) :
    (∃ e ∈ entriesOf files, e.filename = fn) ↔
      requiredFieldsOk (parse_front_matter content) = true := by
  constructor
  · rintro ⟨e, he, hefn⟩
    simp only [entriesOf, collectRun] at he
    rcases (stateEntries_foldl files ⟨[], []⟩ e).1 he with h0 | ⟨p, hpmem, _, hpok, rfl⟩
    · simp [stateEntries] at h0
    · rw [mkEntryOf_filename] at hefn
      have hpq : (fn, content) = p :=
        eq_of_nodup_keys files hnd _ _ hmem hpmem (by simp [hefn])
      rw [← hpq] at hpok
      exact hpok
  · intro hok
    refine ⟨mkEntryOf fn content, ?_, mkEntryOf_filename fn content⟩
    simp only [entriesOf, collectRun]
    exact (stateEntries_foldl files ⟨[], []⟩ _).2
      (Or.inr ⟨(fn, content), hmem, hcand, hok, rfl⟩)

/-- Witness for C1 at a concrete run. -/
theorem required_field_gating_witness :
    (((([("a.md", "---\ntitle: T\ncategory: C\ndescription: D\n---\n")]).map
        Prod.fst).Nodup ∧
      ("a.md", "---\ntitle: T\ncategory: C\ndescription: D\n---\n") ∈
        [("a.md", "---\ntitle: T\ncategory: C\ndescription: D\n---\n")] ∧
      isCandidate "a.md" = true) ∧
    ((∃ e ∈ entriesOf [("a.md", "---\ntitle: T\ncategory: C\ndescription: D\n---\n")],
        e.filename = "a.md") ↔
      requiredFieldsOk
        (parse_front_matter "---\ntitle: T\ncategory: C\ndescription: D\n---\n") = true)) :=
  ⟨⟨by decide, by decide, by decide⟩,
    required_field_gating _ (by decide) "a.md" _ (by decide) (by decide)⟩

/-! ## Warnings, skipped files, and exclusion -/

theorem warnings_stepFile (st : RunState) (f : String × String) :
    (stepFile st f).warnings =
      st.warnings ++
        (if isCandidate f.1 && failsGate f.2 then [warnMsg f.1 f.2] else []) := by
  obtain ⟨fn, content⟩ := f
  by_cases hex : fn ∈ EXCLUDED_FILES
  · simp [stepFile, hex, isCandidate]
  · rcases hp : parse_front_matter content with _ | fm
    · simp [stepFile, hex, hp, isCandidate, failsGate, requiredFieldsOk, warnMsg]
    · rcases ht : dictGet fm "title" with _ | t
      · simp [stepFile, hex, hp, ht, isCandidate, failsGate, requiredFieldsOk, warnMsg]
      · rcases hc : dictGet fm "category" with _ | c
        · simp [stepFile, hex, hp, ht, hc, isCandidate, failsGate, requiredFieldsOk, warnMsg]
        · rcases hd : dictGet fm "description" with _ | d
          · simp [stepFile, hex, hp, ht, hc, hd, isCandidate, failsGate, requiredFieldsOk,
              warnMsg]
          · by_cases hg : t ≠ "" ∧ c ≠ "" ∧ d ≠ ""
            · simp [stepFile, hex, hp, ht, hc, hd, hg, isCandidate, failsGate,
                requiredFieldsOk, warnMsg]
            · simp [stepFile, hex, hp, ht, hc, hd, hg, isCandidate, failsGate,
                requiredFieldsOk, warnMsg]

theorem length_flatMap_addEntry (cats : List (String × List Entry)) (c : String) (e : Entry) :
    ((addEntry cats c e).flatMap Prod.snd).length = (cats.flatMap Prod.snd).length + 1 := by
  induction cats with
  | nil => simp [addEntry]
  | cons p rest ih =>
    obtain ⟨c', es⟩ := p
    by_cases h : c' = c
    · simp only [addEntry, if_pos h, List.flatMap_cons]
      simp [List.length_append]
      omega
    · simp only [addEntry, if_neg h, List.flatMap_cons]
      simp [List.length_append, ih]
      omega

theorem length_stateEntries_stepFile (st : RunState) (f : String × String) :
    (stateEntries (stepFile st f)).length =
      (stateEntries st).length +
        (if isCandidate f.1 && !(failsGate f.2) then 1 else 0) := by
  obtain ⟨fn, content⟩ := f
  by_cases hex : fn ∈ EXCLUDED_FILES
  · simp [stepFile, hex, isCandidate]
  · rcases hp : parse_front_matter content with _ | fm
    · simp [stepFile, hex, hp, isCandidate, failsGate, requiredFieldsOk, stateEntries]
    · rcases ht : dictGet fm "title" with _ | t
      · simp [stepFile, hex, hp, ht, isCandidate, failsGate, requiredFieldsOk, stateEntries]
      · rcases hc : dictGet fm "category" with _ | c
        · simp [stepFile, hex, hp, ht, hc, isCandidate, failsGate, requiredFieldsOk,
            stateEntries]
        · rcases hd : dictGet fm "description" with _ | d
          · simp [stepFile, hex, hp, ht, hc, hd, isCandidate, failsGate, requiredFieldsOk,
              stateEntries]
          · by_cases hg : t ≠ "" ∧ c ≠ "" ∧ d ≠ ""
            · have hlen := length_flatMap_addEntry st.categories c (Entry.mk t d fn)
              simp [stepFile, hex, hp, ht, hc, hd, hg, isCandidate, failsGate,
                requiredFieldsOk, stateEntries]
              simpa using hlen
            · simp [stepFile, hex, hp, ht, hc, hd, hg, isCandidate, failsGate,
                requiredFieldsOk, stateEntries]

theorem categories_stepFile_skip (st : RunState) (f : String × String)
    (h : isCandidate f.1 = false ∨ failsGate f.2 = true) :
    (stepFile st f).categories = st.categories := by
  obtain ⟨fn, content⟩ := f
  by_cases hex : fn ∈ EXCLUDED_FILES
  · simp [stepFile, hex]
  · rcases hp : parse_front_matter content with _ | fm
    · simp [stepFile, hex, hp]
    · rcases ht : dictGet fm "title" with _ | t
      · simp [stepFile, hex, hp, ht]
      · rcases hc : dictGet fm "category" with _ | c
        · simp [stepFile, hex, hp, ht, hc]
        · rcases hd : dictGet fm "description" with _ | d
          · simp [stepFile, hex, hp, ht, hc, hd]
          · by_cases hg : t ≠ "" ∧ c ≠ "" ∧ d ≠ ""
            · exfalso
              rcases h with h | h
              · rw [isCandidate] at h
                simp [hex] at h
              · rw [failsGate, hp] at h
                simp [requiredFieldsOk, ht, hc, hd, hg] at h
            · simp [stepFile, hex, hp, ht, hc, hd, hg]

theorem warnings_foldl (files : List (String × String)) (st : RunState) :
    (files.foldl stepFile st).warnings =
      st.warnings ++
        (files.filter (fun p => isCandidate p.1 && failsGate p.2)).map
          (fun p => warnMsg p.1 p.2) := by
  induction files generalizing st with
  | nil => simp
  | cons f fs ih =>
    rw [List.foldl_cons, ih, warnings_stepFile]
    by_cases h : isCandidate f.1 && failsGate f.2
    · simp [List.filter_cons, h, List.append_assoc]
    · simp [List.filter_cons, h]

theorem length_entries_foldl (files : List (String × String)) (st : RunState) :
    (stateEntries (files.foldl stepFile st)).length =
      (stateEntries st).length +
        (files.filter (fun p => isCandidate p.1 && !(failsGate p.2))).length := by
  induction files generalizing st with
  | nil => simp
  | cons f fs ih =>
    rw [List.foldl_cons, ih, length_stateEntries_stepFile]
    by_cases h : isCandidate f.1 && !(failsGate f.2)
    · simp [List.filter_cons, h]
      omega
    · simp [List.filter_cons, h]

theorem categories_foldl_skip (files : List (String × String)) (st : RunState)
    (h : ∀ p ∈ files, failsGate p.2 = true) :
    (files.foldl stepFile st).categories = st.categories := by
  induction files generalizing st with
  | nil => rfl
  | cons f fs ih =>
    rw [List.foldl_cons, ih _ (fun p hp => h p (List.mem_cons.2 (Or.inr hp))),
      categories_stepFile_skip st f (Or.inr (h f (List.mem_cons_self f fs)))]

theorem generate_readme_congr (a b : List (String × String))
    (h : (collectRun a).categories = (collectRun b).categories) :
    generate_readme a = generate_readme b := by
  simp only [generate_readme, allLines, totalCount, sortedCategories, h]

/-- C9: parse failures are per-file and recoverable: exactly the candidate
files that fail (no metadata block, or missing/empty required fields) emit one
diagnostic line naming that file, exactly the candidate files that pass
contribute an Entry each, and a run whose files all fail still renders the
same complete document as a run over an empty directory (an empty "Plans by
Category" section). -/
theorem per_file_recovery (files : List (String × String)) :
    (collectRun files).warnings =
      (files.filter (fun p => isCandidate p.1 && failsGate p.2)).map
        (fun p => warnMsg p.1 p.2) ∧
    (entriesOf files).length =
      (files.filter (fun p => isCandidate p.1 && !(failsGate p.2))).length ∧
    generate_readme (files.filter (fun p => failsGate p.2)) = generate_readme [] := by
  refine ⟨?_, ?_, ?_⟩
  · have h := warnings_foldl files ⟨[], []⟩
    simpa [collectRun] using h
  · have h := length_entries_foldl files ⟨[], []⟩
    simpa [collectRun, entriesOf, stateEntries] using h
  · apply generate_readme_congr
    rw [collectRun, collectRun]
    rw [categories_foldl_skip _ _ (fun p hp => (List.mem_filter.1 hp).2)]
    rfl

theorem stepFile_excluded (st : RunState) (f : String × String)
    (h : isCandidate f.1 = false) : stepFile st f = st := by
  obtain ⟨fn, content⟩ := f
  rw [isCandidate] at h
  have hmem : fn ∈ EXCLUDED_FILES := by simpa using h
  simp [stepFile, hmem]

theorem foldl_stepFile_filter (files : List (String × String)) (st : RunState) :
    files.foldl stepFile st = (files.filter (fun p => isCandidate p.1)).foldl stepFile st := by
  induction files generalizing st with
  | nil => rfl
  | cons f fs ih =>
    by_cases h : isCandidate f.1 = true
    · rw [List.foldl_cons, ih, List.filter_cons, if_pos (by simpa using h), List.foldl_cons]
    · rw [List.foldl_cons, stepFile_excluded st f (by simpa using h), ih,
        List.filter_cons, if_neg (by simpa using h)]

/-- C5: the rendered document is a deterministic function of the non-excluded
(filename, content) pairs: two runs whose directories agree on all
non-excluded files produce byte-identical output.  In particular the output
file `README.md` (and `CLAUDE.md`), being excluded from the collection loop,
cannot change a subsequent run's result, so running the generator twice on an
otherwise unchanged directory is idempotent. -/
theorem idempotent_excluded_output (files1 files2 : List (String × String))
    (h : files1.filter (fun p => isCandidate p.1) =
      files2.filter (fun p => isCandidate p.1)) :
    generate_readme files1 = generate_readme files2 := by
  apply generate_readme_congr
  rw [collectRun, collectRun, foldl_stepFile_filter files1, foldl_stepFile_filter files2, h]

/-- Witness for C5: a run with a stale `README.md` and a run with a `CLAUDE.md`
instead, agreeing on the one real plan file, render identically. -/
theorem idempotent_excluded_output_witness :
    ([("README.md", "stale"), ("a.md", "---\ntitle: T\ncategory: C\ndescription: D\n---\n")].filter
        (fun p => isCandidate p.1) =
      [("a.md", "---\ntitle: T\ncategory: C\ndescription: D\n---\n"), ("CLAUDE.md", "x")].filter
        (fun p => isCandidate p.1)) ∧
    generate_readme
        [("README.md", "stale"), ("a.md", "---\ntitle: T\ncategory: C\ndescription: D\n---\n")] =
      generate_readme
        [("a.md", "---\ntitle: T\ncategory: C\ndescription: D\n---\n"), ("CLAUDE.md", "x")] :=
  ⟨by decide, idempotent_excluded_output _ _ (by decide)⟩

/-! ## Category ordering and entry sorting (C2, C3) -/

/-- C2: the rendered category list is the preferred categories that are
present, in `CATEGORY_ORDER`'s (nine-element) order, followed by the remaining
present categories sorted in case-sensitive code-point order; category names
are compared as opaque strings (no normalisation is applied anywhere). -/
theorem category_ordering (cats : List (String × List Entry)) :
    CATEGORY_ORDER.length = 9 ∧
    ∃ rest,
      orderedCategories cats =
        CATEGORY_ORDER.filter (fun c => decide (c ∈ cats.map Prod.fst)) ++ rest ∧
      List.Pairwise (fun a b : String => a ≤ b) rest ∧
      rest.Nodup ∧
      (∀ c, c ∈ rest ↔ c ∈ cats.map Prod.fst ∧ c ∉ CATEGORY_ORDER) := by
  refine ⟨rfl,
    sortStrings (((cats.map Prod.fst).filter (fun c => !CATEGORY_ORDER.contains c)).dedup),
    ?_, ?_, ?_, ?_⟩
  · rw [orderedCategories]
    congr 1
    apply List.filter_congr
    intro c _
    rw [Bool.eq_iff_iff, dictGet_isSome_iff, decide_eq_true_eq]
  · have h := pySort_sorted (fun s => s)
      (((cats.map Prod.fst).filter (fun c => !CATEGORY_ORDER.contains c)).dedup)
    simpa [sortStrings] using h
  · exact ((pySort_perm (fun s => s) _).symm).nodup (List.nodup_dedup _)
  · intro c
    rw [sortStrings, (pySort_perm (fun s => s) _).mem_iff, List.mem_dedup, List.mem_filter]
    simp

/-- C3: within each category group the entries are sorted by the
case-lowered title (case-insensitive lexicographic order), the sort is a
permutation, ties on the lowered title keep their original insertion order
(stability), and titles "banana", "Apple", "cherry" come out as Apple,
banana, cherry. -/
theorem entry_sort_stable (l : List Entry) :
    List.Perm (sortEntries l) l ∧
    List.Pairwise (fun a b => titleKey a ≤ titleKey b) (sortEntries l) ∧
    (∀ k : String, (sortEntries l).filter (fun e => titleKey e == k) =
        l.filter (fun e => titleKey e == k)) ∧
    sortEntries [Entry.mk "banana" "db" "fb", Entry.mk "Apple" "da" "fa",
        Entry.mk "cherry" "dc" "fc"] =
      [Entry.mk "Apple" "da" "fa", Entry.mk "banana" "db" "fb",
        Entry.mk "cherry" "dc" "fc"] :=
  ⟨pySort_perm titleKey l, pySort_sorted titleKey l,
    fun k => pySort_filter_key titleKey l k, by decide⟩

/-! ## Counting the rendered bullets (C4) -/

theorem data_append (a b : String) : (a ++ b).data = a.data ++ b.data := rfl

theorem isBulletLine_bullet (e : Entry) : isBulletLine (bulletLine e) = true := rfl

theorem isBulletLine_header (c : String) : isBulletLine ("### " ++ c) = false := rfl

theorem isBulletLine_overview (t : Nat) : isBulletLine (overviewLine t) = false := rfl

theorem countP_headLines (t : Nat) : (headLines t).countP isBulletLine = 0 := by
  rw [List.countP_eq_zero]
  intro a ha
  rw [headLines] at ha
  simp only [List.mem_cons, List.not_mem_nil, or_false] at ha
  rcases ha with rfl | rfl | rfl | rfl | rfl | rfl | rfl | rfl | rfl
  · decide
  · decide
  · decide
  · decide
  · decide
  · decide
  · rw [isBulletLine_overview]
    simp
  · decide
  · decide

theorem countP_categoryLines (cats : List (String × List Entry)) (c : String) :
    (categoryLines cats c).countP isBulletLine = ((dictGet cats c).getD []).length := by
  have h1 : List.countP isBulletLine
      (((dictGet cats c).getD []).map bulletLine) = ((dictGet cats c).getD []).length := by
    rw [List.countP_map]
    rw [List.countP_eq_length]
    intro e _
    exact isBulletLine_bullet e
  have h2 : isBulletLine ("### " ++ c) = false := isBulletLine_header c
  simp [categoryLines, List.countP_cons, List.countP_append, h1, h2, isBulletLine]

theorem foldl_add_eq_sum {β : Type} (g : β → Nat) (L : List β) (n : Nat) :
    L.foldl (fun m c => m + g c) n = n + (L.map g).sum := by
  induction L generalizing n with
  | nil => simp
  | cons c cs ih =>
    rw [List.foldl_cons, ih, List.map_cons, List.sum_cons]
    omega

theorem countP_flatMap_categoryLines (cats : List (String × List Entry)) (L : List String) :
    (L.flatMap (categoryLines cats)).countP isBulletLine =
      (L.map (fun c => ((dictGet cats c).getD []).length)).sum := by
  induction L with
  | nil => simp
  | cons c cs ih =>
    rw [List.flatMap_cons, List.countP_append, countP_categoryLines, ih, List.map_cons,
      List.sum_cons]

/-- C4: the number interpolated into the Overview sentence equals the exact
number of bullet lines rendered across all category sections. -/
theorem overview_count_accuracy (files : List (String × String)) :
    (allLines files).countP isBulletLine = totalCount files ∧
    (allLines files)[6]? = some (overviewLine (totalCount files)) := by
  constructor
  · have htail : tailHowToLines.countP isBulletLine = 0 := by decide
    simp only [allLines, totalCount, List.countP_append, countP_headLines,
      countP_flatMap_categoryLines, htail, foldl_add_eq_sum]
    omega
  · simp only [allLines, headLines]
    rfl

/-! ## The trailing newline (C8) -/

theorem strAppend_assoc (a b c : String) : a ++ b ++ c = a ++ (b ++ c) :=
  String.ext (by simp [data_append, List.append_assoc])

theorem strAppend_empty (s : String) : s ++ "" = s :=
  String.ext (by simp [data_append])

theorem joinLines_cons (y : String) (ls : List String) (h : ls ≠ []) :
    joinLines (y :: ls) = y ++ "\n" ++ joinLines ls := by
  cases ls with
  | nil => exact absurd rfl h
  | cons a as => rfl

theorem joinLines_append_two (a : List String) (x : String) :
    joinLines (a ++ [x, ""]) = joinLines (a ++ [x]) ++ "\n" := by
  induction a with
  | nil =>
    show joinLines [x, ""] = joinLines [x] ++ "\n"
    show x ++ "\n" ++ joinLines [""] = x ++ "\n"
    show x ++ "\n" ++ "" = x ++ "\n"
    exact strAppend_empty _
  | cons y a' ih =>
    rw [List.cons_append, joinLines_cons y _ (by simp), ih, List.cons_append,
      joinLines_cons y _ (by simp), strAppend_assoc (y ++ "\n")]

theorem joinLines_ends (a : List String) (x : String) :
    ∃ t : String, joinLines (a ++ [x]) = t ++ x := by
  induction a with
  | nil =>
    refine ⟨"", ?_⟩
    show x = "" ++ x
    exact (String.ext (by simp [data_append])).symm
  | cons y a' ih =>
    obtain ⟨t, ht⟩ := ih
    refine ⟨y ++ "\n" ++ t, ?_⟩
    rw [List.cons_append, joinLines_cons y _ (by simp), ht, strAppend_assoc (y ++ "\n")]

theorem joinLines_tail_shape (a : List String) :
    ∃ s : String, joinLines (a ++ tailHowToLines) = s ++ "\n" ∧
      s.data.getLast? = some '.' := by
  have htail : tailHowToLines =
      (["",
        "## How to Use These Plans",
        "",
        "Each plan is a standalone Markdown file structured around:",
        "",
        "1. **Phases** — Progressive stages from foundations to advanced topics, typically spanning 12–16 weeks.",
        "2. **Milestones** — Concrete projects and exercises at each phase to validate understanding.",
        "3. **Curated Resources** — Books, documentation, talks, and blog posts selected for each topic.",
        ""] ++
       ["Pick a plan that matches your current learning goal, work through the phases at your own pace, and use the milestones to gauge progress.",
        ""]) := by decide
  rw [htail, ← List.append_assoc, joinLines_append_two]
  obtain ⟨t, ht⟩ := joinLines_ends
    (a ++
      ["",
       "## How to Use These Plans",
       "",
       "Each plan is a standalone Markdown file structured around:",
       "",
       "1. **Phases** — Progressive stages from foundations to advanced topics, typically spanning 12–16 weeks.",
       "2. **Milestones** — Concrete projects and exercises at each phase to validate understanding.",
       "3. **Curated Resources** — Books, documentation, talks, and blog posts selected for each topic.",
       ""])
    "Pick a plan that matches your current learning goal, work through the phases at your own pace, and use the milestones to gauge progress."
  refine ⟨_, rfl, ?_⟩
  rw [ht, data_append, List.getLast?_append_of_ne_nil _ (by decide)]
  decide

/-- C8: the rendered document ends with exactly one trailing newline: it is
some text whose last character is the final period of the closing "How to
Use" paragraph, followed by a single newline (produced by the final empty
line of the joined line list). -/
theorem trailing_blank_line (files : List (String × String)) :
    ∃ s : String, generate_readme files = s ++ "\n" ∧ s.data.getLast? = some '.' := by
  simp only [generate_readme, allLines]
  exact joinLines_tail_shape _

/-! ## Empty quoted values (C10) -/

/-- C10: a line `title: ""` does not match the double-quoted pattern (whose
group needs at least one character), falls through to the bare pattern, and
yields the literal two-character value `""`; a file whose three required
fields are all empty quoted strings therefore passes the gate and produces an
Entry instead of being skipped. -/
theorem empty_quoted_value_entry :
    parse_front_matter "---\ntitle: \"\"\ncategory: \"\"\ndescription: \"\"\n---\n" =
      some [("title", "\"\""), ("category", "\"\""), ("description", "\"\"")] ∧
    entriesOf [("plan.md", "---\ntitle: \"\"\ncategory: \"\"\ndescription: \"\"\n---\n")] =
      [Entry.mk "\"\"" "\"\"" "plan.md"] :=
  ⟨by decide, by decide⟩

/-! ## List prefix helpers for the regex proofs -/

theorem takeWhile_append_all {p : Char → Bool} :
    ∀ l1 l2 : List Char, l1.all p = true →
      (l1 ++ l2).takeWhile p = l1 ++ l2.takeWhile p := by
  intro l1
  induction l1 with
  | nil => intro l2 _; rfl
  | cons c cs ih =>
    intro l2 h
    rw [List.all_cons, Bool.and_eq_true] at h
    rw [List.cons_append, List.takeWhile_cons, if_pos h.1, ih l2 h.2, List.cons_append]

theorem dropWhile_append_all {p : Char → Bool} :
    ∀ l1 l2 : List Char, l1.all p = true →
      (l1 ++ l2).dropWhile p = l2.dropWhile p := by
  intro l1
  induction l1 with
  | nil => intro l2 _; rfl
  | cons c cs ih =>
    intro l2 h
    rw [List.all_cons, Bool.and_eq_true] at h
    rw [List.cons_append, List.dropWhile_cons, if_pos h.1, ih l2 h.2]

theorem mem_takeWhile_split {p : Char → Bool} {x : Char} :
    ∀ l : List Char, x ∈ l.takeWhile p →
      ∃ w rest, l = w ++ x :: rest ∧ w.all p = true := by
  intro l
  induction l with
  | nil => intro h; simp [List.takeWhile] at h
  | cons c t ih =>
    intro h
    rw [List.takeWhile_cons] at h
    by_cases hp : p c = true
    · rw [if_pos hp] at h
      rcases List.mem_cons.1 h with rfl | h'
      · exact ⟨[], t, rfl, rfl⟩
      · obtain ⟨w, rest, hl, hw⟩ := ih h'
        exact ⟨c :: w, rest, by rw [hl, List.cons_append],
          by rw [List.all_cons, Bool.and_eq_true]; exact ⟨hp, hw⟩⟩
    · rw [if_neg hp] at h
      cases h

theorem drop_snoc_append (w t : List Char) (c : Char) :
    (w ++ c :: t).drop (w.length + 1) = t := by
  have h1 : w ++ c :: t = (w ++ [c]) ++ t := by simp
  have h2 : w.length + 1 = (w ++ [c]).length := by simp
  rw [h1, h2, List.drop_left]

theorem findSome?_isSome_of_mem {α β : Type} (L : List α) (f : α → Option β) (x : α)
    (hx : x ∈ L) (hfx : f x ≠ none) : L.findSome? f ≠ none := by
  induction L with
  | nil => cases hx
  | cons a L' ih =>
    cases hfa : f a with
    | some b => simp [List.findSome?_cons, hfa]
    | none =>
      rw [List.findSome?_cons, hfa]
      rcases List.mem_cons.1 hx with rfl | hx'
      · exact absurd hfa hfx
      · exact ih hx'

/-! ## Characterising the front-matter regex (C6) -/

theorem scanForClose_sound :
    ∀ (l acc g : List Char), scanForClose acc l = some g →
      ∃ a b, l = a ++ '\n' :: b ∧ isCloseDelim b = true := by
  intro l
  induction l with
  | nil => intro acc g h; exact absurd h (by simp [scanForClose])
  | cons c rest ih =>
    intro acc g h
    rw [scanForClose] at h
    split at h
    · rename_i hcond
      rw [Bool.and_eq_true, decide_eq_true_eq] at hcond
      exact ⟨[], rest, by rw [hcond.1]; rfl, hcond.2⟩
    · obtain ⟨a, b, hl, hcb⟩ := ih _ _ h
      exact ⟨c :: a, b, by rw [hl, List.cons_append], hcb⟩

theorem scanForClose_complete :
    ∀ (a b : List Char), isCloseDelim b = true →
      ∀ acc, scanForClose acc (a ++ '\n' :: b) ≠ none := by
  intro a
  induction a with
  | nil =>
    intro b hb acc
    rw [List.nil_append, scanForClose]
    simp [hb]
  | cons c a' ih =>
    intro b hb acc
    rw [List.cons_append, scanForClose]
    split
    · simp
    · exact ih b hb _

theorem isCloseDelim_iff (b : List Char) :
    isCloseDelim b = true ↔
      ∃ w2 rest, b = '-' :: '-' :: '-' :: (w2 ++ '\n' :: rest) ∧ w2.all isSpace = true := by
  constructor
  · intro h
    rcases b with _ | ⟨c0, _ | ⟨c1, _ | ⟨c2, t⟩⟩⟩
    · exact absurd h (by simp [isCloseDelim])
    · exact absurd h (by simp [isCloseDelim])
    · exact absurd h (by simp [isCloseDelim])
    · rw [isCloseDelim] at h
      simp only [Bool.and_eq_true, decide_eq_true_eq] at h
      obtain ⟨⟨⟨rfl, rfl⟩, rfl⟩, hcont⟩ := h
      have hmem : '\n' ∈ t.takeWhile isSpace := by
        simpa [List.elem_iff] using hcont
      obtain ⟨w2, rest, ht, hw2⟩ := mem_takeWhile_split t hmem
      exact ⟨w2, rest, by rw [ht], hw2⟩
  · rintro ⟨w2, rest, rfl, hw2⟩
    have hsp : isSpace '\n' = true := by decide
    have hmem : '\n' ∈ (w2 ++ '\n' :: rest).takeWhile isSpace := by
      rw [takeWhile_append_all w2 _ hw2, List.takeWhile_cons, if_pos hsp]
      simp
    rw [isCloseDelim]
    simp only [Bool.and_eq_true, decide_eq_true_eq]
    simpa [List.elem_iff] using hmem

theorem nlPositions_sound :
    ∀ (cs : List Char) (i k : Nat), k ∈ nlPositions cs i →
      ∃ w t, cs = w ++ '\n' :: t ∧ w.all isSpace = true ∧ i + w.length = k := by
  intro cs
  induction cs with
  | nil => intro i k h; simp [nlPositions] at h
  | cons c t ih =>
    intro i k h
    rw [nlPositions] at h
    by_cases hc : c = '\n'
    · rw [if_pos hc] at h
      rcases List.mem_cons.1 h with rfl | h'
      · exact ⟨[], t, by rw [hc, List.nil_append], rfl, by simp⟩
      · obtain ⟨w, t', hl, hw, hk⟩ := ih (i + 1) k h'
        refine ⟨c :: w, t', by rw [hl, List.cons_append], ?_, ?_⟩
        · rw [List.all_cons, Bool.and_eq_true]
          exact ⟨by rw [hc]; decide, hw⟩
        · rw [List.length_cons]
          omega
    · rw [if_neg hc] at h
      by_cases hs : isSpace c = true
      · rw [if_pos hs] at h
        obtain ⟨w, t', hl, hw, hk⟩ := ih (i + 1) k h
        refine ⟨c :: w, t', by rw [hl, List.cons_append], ?_, ?_⟩
        · rw [List.all_cons, Bool.and_eq_true]
          exact ⟨hs, hw⟩
        · rw [List.length_cons]
          omega
      · rw [if_neg hs] at h
        cases h

theorem nlPositions_complete :
    ∀ (w t : List Char) (i : Nat), w.all isSpace = true →
      (i + w.length) ∈ nlPositions (w ++ '\n' :: t) i := by
  intro w
  induction w with
  | nil =>
    intro t i _
    rw [List.nil_append, nlPositions, if_pos rfl]
    simp
  | cons c w' ih =>
    intro t i hall
    rw [List.all_cons, Bool.and_eq_true] at hall
    rw [List.cons_append, nlPositions]
    have hlen : i + (c :: w').length = (i + 1) + w'.length := by
      rw [List.length_cons]
      omega
    by_cases hc : c = '\n'
    · rw [if_pos hc]
      exact List.mem_cons.2 (Or.inr (hlen ▸ ih t (i + 1) hall.2))
    · rw [if_neg hc, if_pos hall.1]
      exact hlen ▸ ih t (i + 1) hall.2

theorem matchFMB_iff (cs : List Char) :
    matchFrontMatterBlock cs ≠ none ↔ FMDecomp cs := by
  constructor
  · intro h
    rcases cs with _ | ⟨c0, _ | ⟨c1, _ | ⟨c2, rest⟩⟩⟩
    · exact absurd rfl h
    · exact absurd rfl h
    · exact absurd rfl h
    · rw [matchFrontMatterBlock] at h
      by_cases hc : c0 = '-' ∧ c1 = '-' ∧ c2 = '-'
      · rw [if_pos hc] at h
        obtain ⟨rfl, rfl, rfl⟩ := hc
        obtain ⟨g, hg⟩ := Option.ne_none_iff_exists'.1 h
        obtain ⟨k, hk, hfk⟩ := List.exists_of_findSome?_eq_some hg
        rw [List.mem_reverse] at hk
        obtain ⟨w, t, hrest, hw, hwk⟩ := nlPositions_sound rest 0 k hk
        rw [hrest] at hfk
        have hkw : k = w.length := by omega
        rw [hkw, drop_snoc_append] at hfk
        obtain ⟨a, b, ht, hcb⟩ := scanForClose_sound t [] g hfk
        obtain ⟨w2, rest', hb, hw2⟩ := (isCloseDelim_iff b).1 hcb
        refine ⟨w, a, w2, rest', ?_, hw, hw2⟩
        rw [hrest, ht, hb]
      · rw [if_neg hc] at h
        exact absurd rfl h
  · rintro ⟨w, body, w2, rest, rfl, hw, hw2⟩
    rw [matchFrontMatterBlock, if_pos ⟨rfl, rfl, rfl⟩]
    have hclose : isCloseDelim ('-' :: '-' :: '-' :: (w2 ++ '\n' :: rest)) = true :=
      (isCloseDelim_iff _).2 ⟨w2, rest, rfl, hw2⟩
    have hscan :
        scanForClose [] (body ++ '\n' :: ('-' :: '-' :: '-' :: (w2 ++ '\n' :: rest))) ≠ none :=
      scanForClose_complete body _ hclose []
    apply findSome?_isSome_of_mem _ _ (0 + w.length)
      (List.mem_reverse.2 (nlPositions_complete w _ 0 hw))
    have hdrop :
        ((w ++ '\n' :: (body ++ '\n' :: ('-' :: '-' :: '-' :: (w2 ++ '\n' :: rest)))).drop
          (0 + w.length + 1)) =
          body ++ '\n' :: ('-' :: '-' :: '-' :: (w2 ++ '\n' :: rest)) := by
      rw [Nat.zero_add, drop_snoc_append]
    rw [hdrop]
    exact hscan

/-- C6 is false as stated: this content's first line is `--- ` with a trailing
space — not a line consisting solely of three hyphens — so the claim requires
"no metadata"; the regex accepts trailing whitespace on the delimiter lines
and the parser returns an (empty) mapping. -/
theorem no_metadata_counterexample :
    parse_front_matter "--- \nfoo\n--- \nrest" = some [] ∧
    "--- \nfoo\n--- \nrest".data.takeWhile (fun c => !(c == '\n')) ≠ "---".data :=
  ⟨by decide, by decide⟩

/-- C6 (amended): the parser reports "no metadata" exactly when the content
does not decompose as: `---`, optional whitespace, a newline, at least one
further line (a block of at least one character ending in a newline), then
`---` at the start of a line, optional whitespace, and a final newline.  In
particular the delimiter lines may carry trailing whitespace, the block must
contain at least one character, and the closing delimiter must itself be
terminated by a newline; whenever such a decomposition exists the parser
returns a (possibly empty) mapping, so "no metadata" and "empty metadata"
remain distinct results. -/
theorem no_metadata_iff (content : String) :
    parse_front_matter content = none ↔ ¬ FMDecomp content.data := by
  rw [parse_front_matter, Option.map_eq_none', ← matchFMB_iff]
  tauto

/-! ## The quoted pattern and value stripping (C7) -/

/-- C7 is false as stated: for the double-quoted line `title: " a "` the
content between the quotes is `" a "`, but the parser stores the
whitespace-stripped value `"a"` — `.strip()` is applied to the matched value
of every pattern, not only the bare one. -/
theorem quoted_value_not_raw :
    parse_front_matter "---\ntitle: \" a \"\n---\n" = some [("title", "a")] ∧
    ("a" : String) ≠ " a " :=
  ⟨by decide, by decide⟩

/-- C7 (amended): the three patterns are tried in the stated precedence, and a
line `key: "value"` (word-character key, at least one character between the
quotes) matches the double-quoted pattern with the raw group being exactly the
content between the quotes; the stored value is that content additionally
stripped of leading and trailing whitespace. -/
theorem quoted_pattern_value (k v : List Char) (hk : k ≠ [])
    (hkw : k.all isWordChar = true) (hv : v ≠ []) :
    parseKV (k ++ ':' :: ' ' :: '"' :: (v ++ ['"'])) = some (⟨k⟩, v) ∧
    parseBlock [k ++ ':' :: ' ' :: '"' :: (v ++ ['"'])] = [(⟨k⟩, pythonStrip ⟨v⟩)] := by
  have hkey : (k ++ ':' :: ' ' :: '"' :: (v ++ ['"'])).takeWhile isWordChar = k := by
    rw [takeWhile_append_all k _ hkw, List.takeWhile_cons, if_neg (by decide),
      List.append_nil]
  have hdrop1 : (k ++ ':' :: ' ' :: '"' :: (v ++ ['"'])).dropWhile isWordChar =
      ':' :: ' ' :: '"' :: (v ++ ['"']) := by
    rw [dropWhile_append_all k _ hkw, List.dropWhile_cons, if_neg (by decide)]
  have hkne : k.isEmpty = false := by
    cases k with
    | nil => exact absurd rfl hk
    | cons c cs => rfl
  have hvrev : v.reverse.isEmpty = false := by
    cases hvr : v.reverse with
    | nil => exact absurd (List.reverse_eq_nil_iff.1 hvr) hv
    | cons a as => rfl
  have hq : quotedVal '"' (v ++ ['"']) = some v := by
    have hrev : (v ++ ['"']).reverse = '"' :: v.reverse := by simp
    simp only [quotedVal, hrev]
    simp [hvrev]
  have hs1 : isSpace ':' = false := by decide
  have hs2 : isSpace ' ' = true := by decide
  have hs3 : isSpace '"' = false := by decide
  have h1 : parseKV (k ++ ':' :: ' ' :: '"' :: (v ++ ['"'])) = some (⟨k⟩, v) := by
    simp only [parseKV, hkey, hdrop1, hkne, List.dropWhile_cons, hs1, hs2, hs3,
      Bool.false_eq_true, if_false, if_true, hq]
    simp
  refine ⟨h1, ?_⟩
  simp [parseBlock, h1, dictInsert, pythonStrip]

/-- Witness for the amended C7 at `key: " a "`. -/
theorem quoted_pattern_value_witness :
    ("key".data ≠ [] ∧ "key".data.all isWordChar = true ∧ " a ".data ≠ []) ∧
    (parseKV ("key".data ++ ':' :: ' ' :: '"' :: (" a ".data ++ ['"'])) =
        some (⟨"key".data⟩, " a ".data) ∧
      parseBlock ["key".data ++ ':' :: ' ' :: '"' :: (" a ".data ++ ['"'])] =
        [(⟨"key".data⟩, pythonStrip ⟨" a ".data⟩)]) :=
  ⟨⟨by decide, by decide, by decide⟩,
    quoted_pattern_value "key".data " a ".data (by decide) (by decide) (by decide)⟩
